import Mathlib

/-!
Verification of `pytorch_lightning/utilities/grads.py`.

The file embeds the single function `grad_norm` of the repository in Lean:

* a module is a list of named parameters, each holding tensor data and an
  optional gradient tensor (tensors are lists of exact rationals, the
  real-number abstraction of their float entries);
* the Python `dict` built by `grad_norm` is an association list with
  Python's update semantics (an existing key keeps its position and gets the
  new value, a fresh key is appended);
* `torch.Tensor.norm` and the `float(...)` conversion are external to the
  repository and are modelled from the specification's glossary
  (p-norm `(sum |x_i|^p)^(1/p)`, infinity norm `max |x_i|`, a norm order must
  parse as a float or the call fails);
* Python's `round(v, 4)` is round-half-to-even at four decimal places.
-/

namespace Grads

/-- A named parameter of a module: its tensor data and the optional gradient
tensor (`p.grad` in the source, `None` when absent). -/
structure Param where
  name : String
  data : List ℚ
  grad : Option (List ℚ)
  deriving DecidableEq

/-- A module, as seen by `module.named_parameters()`: the ordered list of its
named parameters. -/
abbrev Module := List Param

/-- The parameters of a module that currently hold a gradient
(`p.grad is not None` in the source). -/
def gradParams (m : Module) : List Param :=
  m.filter (fun p => p.grad.isSome)

/-- A Python float value as relevant to `float(norm_type)`: a finite value or
the infinity `float("inf")`. -/
inductive NormOrder where
  | num (p : ℚ)
  | inf
  deriving DecidableEq

/-- The argument `norm_type : Union[float, int, str]` of `grad_norm`. -/
inductive NormInput where
  | ofFloat (f : NormOrder)
  | ofInt (n : ℤ)
  | ofStr (s : String)
  deriving DecidableEq

/-- Value of a list of decimal digit characters, most significant first. -/
def digitsVal (cs : List Char) : ℕ :=
  cs.foldl (fun a c => a * 10 + (c.toNat - (Char.toNat (Char.ofNat 48)))) 0

/-- Strip leading and trailing whitespace from a character list. -/
def trimChars (cs : List Char) : List Char :=
  ((cs.dropWhile Char.isWhitespace).reverse.dropWhile Char.isWhitespace).reverse

/-- Split a character list at the `.` characters. -/
def splitDot : List Char → List (List Char)
  | [] => [[]]
  | c :: rest =>
      match splitDot rest with
      | [] => [[]]
      | g :: gs => if c = Char.ofNat 46 then [] :: g :: gs else (c :: g) :: gs

/-- Modelled from the spec: parsing of an unsigned numeral by Python's
`float`, restricted to plain decimal numerals — digits with an optional
fractional part (`"2"`, `"3.5"`, `"1."`, `".5"`). -/
def parseUnsigned (cs : List Char) : Option ℚ :=
  match splitDot cs with
  | [a] =>
      if a ≠ [] ∧ a.all Char.isDigit then some (digitsVal a) else none
  | [a, b] =>
      if (a ≠ [] ∨ b ≠ []) ∧ a.all Char.isDigit ∧ b.all Char.isDigit then
        some ((digitsVal a : ℚ) + (digitsVal b : ℚ) / 10 ^ b.length)
      else none
  | _ => none

/-- Modelled from the spec: `float(s)` on a string, which must be a real
numeral or a recognized infinity symbol (`"inf"`, `"infinity"`, in any case).
The spec's norm orders are "any non-negative real, or a symbol representing
the infinity norm", so signed infinity symbols are out of scope. -/
def parseFloatStr (s : String) : Option NormOrder :=
  let t := trimChars s.data
  let low := t.map Char.toLower
  if low = "inf".data ∨ low = "infinity".data then some NormOrder.inf
  else
    match t with
    | c :: rest =>
        if c = Char.ofNat 45 then
          (parseUnsigned rest).map (fun q => NormOrder.num (-q))
        else if c = Char.ofNat 43 then
          (parseUnsigned rest).map NormOrder.num
        else (parseUnsigned t).map NormOrder.num
    | [] => none

/-- The conversion `norm_type = float(norm_type)` on line 37 of the source: a
float passes through, an int is cast, a string is parsed; `none` is Python's
`ValueError`, surfaced by the spec as the `InvalidNormOrder` error. -/
def parseNormOrder : NormInput → Option NormOrder
  | NormInput.ofFloat f => some f
  | NormInput.ofInt n => some (NormOrder.num n)
  | NormInput.ofStr s => parseFloatStr s

/-- Modelled from the spec: the textual form of the normalized float norm
order as interpolated into the labels (`f"grad_{norm_type}_norm_..."`).
An integral order renders as Python's `repr` of the float (`2.0`), the
infinity order as `inf`; the rendering of non-integral orders is a fixed
stand-in, the claims constrain only the label template. -/
def showNormOrder : NormOrder → String
  | NormOrder.inf => "inf"
  | NormOrder.num q => if q.den = 1 then toString q.num ++ ".0" else toString q

/-- The common stem of the report labels: `grad_<norm_type>_norm_`. -/
def labelStem (nt : NormOrder) : String :=
  "grad_" ++ showNormOrder nt ++ "_norm_"

/-- The label of one report entry: `grad_<norm_type>_norm_<name>`; the
aggregate entry is `paramLabel nt "total"`. -/
def paramLabel (nt : NormOrder) (name : String) : String :=
  labelStem nt ++ name

/-- The labels of the gradient-bearing parameters of a list of parameters, in
order. -/
def gradLabels (nt : NormOrder) (ps : List Param) : List String :=
  (gradParams ps).map (fun p => paramLabel nt p.name)

/-- Modelled from the spec: `torch.Tensor.norm(p)` on a tensor, glossary
definition — the p-norm `(sum |x_i|^p)^(1/p)` for a finite order, and
`max |x_i|` for the infinity order. -/
noncomputable def pnorm (nt : NormOrder) (xs : List ℝ) : ℝ :=
  match nt with
  | NormOrder.num p => (xs.map (fun x => |x| ^ (p : ℝ))).sum ^ ((p : ℝ))⁻¹
  | NormOrder.inf => xs.foldr (fun x m => max |x| m) 0

/-- A gradient tensor's entries as real numbers. -/
def tensorVals (g : List ℚ) : List ℝ :=
  g.map (fun x => (x : ℝ))

/-- Python `dict` assignment `d[k] = v`: an existing key keeps its position
and receives the new value, a fresh key is appended at the end. -/
def dictInsert (k : String) (v : ℝ) : List (String × ℝ) → List (String × ℝ)
  | [] => [(k, v)]
  | (k', v') :: rest =>
      if k' = k then (k', v) :: rest else (k', v') :: dictInsert k v rest

/-- Python `dict` lookup `d[k]`: the value at the first (and only) entry
whose key equals `k`. -/
def dictLookup (k : String) : List (String × ℝ) → Option ℝ
  | [] => none
  | (k', v') :: rest => if k' = k then some v' else dictLookup k rest

/-- The keys of a dict, in order. -/
def dictKeys (d : List (String × ℝ)) : List String :=
  d.map Prod.fst

/-- The values of a dict, in order (`list(norms.values())` in the source). -/
def dictVals (d : List (String × ℝ)) : List ℝ :=
  d.map Prod.snd

/-- The dict comprehension on lines 38-42 of the source, one Python `dict`
insertion per parameter whose gradient is present, in module order:
`{f"grad_{norm_type}_norm_{name}": p.grad.data.norm(norm_type).item() ...}`. -/
noncomputable def insertGradNorms (nt : NormOrder) :
    List Param → List (String × ℝ) → List (String × ℝ)
  | [], acc => acc
  | p :: ps, acc =>
      match p.grad with
      | some g =>
          insertGradNorms nt ps
            (dictInsert (paramLabel nt p.name) (pnorm nt (tensorVals g)) acc)
      | none => insertGradNorms nt ps acc

/-- The per-parameter norm dict `norms` of the source, before the total entry
and the rounding. -/
noncomputable def paramNorms (nt : NormOrder) (m : Module) : List (String × ℝ) :=
  insertGradNorms nt m []

/-- Round half to even on the reals: the model of Python's `round` to an
integer. -/
noncomputable def pyRound (x : ℝ) : ℤ :=
  if Int.fract x = 2⁻¹ then
    if Even ⌊x⌋ then ⌊x⌋ else ⌊x⌋ + 1
  else round x

/-- Python's `round(v, 4)` on line 46 of the source: round half to even at
four decimal places. -/
noncomputable def round4 (x : ℝ) : ℝ :=
  (pyRound (x * 10000) : ℝ) / 10000

/-- The body of `grad_norm` after the `float` conversion, for an already
normalized order: build the per-parameter norm dict; if it is non-empty,
append the total entry — the norm of the collected per-parameter norm values —
and round every value to 4 decimal places. -/
noncomputable def gradNormCore (nt : NormOrder) (m : Module) : List (String × ℝ) :=
  let norms := paramNorms nt m
  if norms = [] then norms
  else
    let totalNorm := pnorm nt (dictVals norms)
    let norms' := dictInsert (paramLabel nt "total") totalNorm norms
    norms'.map (fun kv => (kv.1, round4 kv.2))

/-- The spec's single error kind for `grad_norm`. -/
inductive GradError where
  | invalidNormOrder
  deriving DecidableEq

/-- `grad_norm(module, norm_type)`: normalize the order with `float` — failing
with the `InvalidNormOrder` error when it does not parse — then compute the
per-parameter and total gradient-norm report. -/
noncomputable def grad_norm (m : Module) (norm_type : NormInput) :
    Except GradError (List (String × ℝ)) :=
  match parseNormOrder norm_type with
  | none => Except.error GradError.invalidNormOrder
  | some nt => Except.ok (gradNormCore nt m)

/-- The state-passing form of `grad_norm`: the body of the source function
only reads `module.named_parameters()` and each `p.grad` and stores nothing
into the module, so the explicit-state translation returns the module state
it was given. -/
noncomputable def grad_norm_run (m : Module) (norm_type : NormInput) :
    Except GradError (List (String × ℝ)) × Module :=
  (grad_norm m norm_type, m)

/-! ### Association-list (Python dict) lemmas -/

@[simp]
theorem dictKeys_nil : dictKeys [] = [] := rfl

@[simp]
theorem dictKeys_cons (k : String) (v : ℝ) (d : List (String × ℝ)) :
    dictKeys ((k, v) :: d) = k :: dictKeys d := rfl

@[simp]
theorem dictVals_nil : dictVals [] = [] := rfl

@[simp]
theorem dictVals_cons (k : String) (v : ℝ) (d : List (String × ℝ)) :
    dictVals ((k, v) :: d) = v :: dictVals d := rfl

theorem dictInsert_ne_nil (k : String) (v : ℝ) (d : List (String × ℝ)) :
    dictInsert k v d ≠ [] := by
  cases d with
  | nil => simp [dictInsert]
  | cons kv rest =>
      obtain ⟨k', v'⟩ := kv
      by_cases h : k' = k <;> simp [dictInsert, h]

theorem mem_keys_dictInsert (a k : String) (v : ℝ) (d : List (String × ℝ)) :
    a ∈ dictKeys (dictInsert k v d) ↔ a ∈ dictKeys d ∨ a = k := by
  induction d with
  | nil => simp [dictInsert]
  | cons kv rest ih =>
      obtain ⟨k', v'⟩ := kv
      by_cases h : k' = k
      · subst h
        simp [dictInsert]
        tauto
      · simp [dictInsert, h, ih]
        tauto

theorem length_dictInsert_of_mem (k : String) (v : ℝ) (d : List (String × ℝ))
    (h : k ∈ dictKeys d) : (dictInsert k v d).length = d.length := by
  induction d with
  | nil => simp [dictKeys] at h
  | cons kv rest ih =>
      obtain ⟨k', v'⟩ := kv
      by_cases hk : k' = k
      · simp [dictInsert, hk]
      · have : k ∈ dictKeys rest := by
          rcases (by simpa [dictKeys] using h) with h1 | h2
          · exact absurd h1.symm hk
          · simpa [dictKeys] using h2
        simp [dictInsert, hk, ih this]

theorem length_dictInsert_of_not_mem (k : String) (v : ℝ) (d : List (String × ℝ))
    (h : k ∉ dictKeys d) : (dictInsert k v d).length = d.length + 1 := by
  induction d with
  | nil => simp [dictInsert]
  | cons kv rest ih =>
      obtain ⟨k', v'⟩ := kv
      have hk : k' ≠ k := by
        intro hkk
        exact h (by rw [dictKeys_cons, hkk]; exact List.mem_cons_self k (dictKeys rest))
      have hrest : k ∉ dictKeys rest := by
        intro hm
        exact h (by rw [dictKeys_cons]; exact List.mem_cons_of_mem k' hm)
      simp [dictInsert, hk, ih hrest]

theorem dictLookup_dictInsert_self (k : String) (v : ℝ) (d : List (String × ℝ)) :
    dictLookup k (dictInsert k v d) = some v := by
  induction d with
  | nil => simp [dictInsert, dictLookup]
  | cons kv rest ih =>
      obtain ⟨k', v'⟩ := kv
      by_cases h : k' = k <;> simp [dictInsert, dictLookup, h, ih]

theorem mem_vals_dictInsert (x : ℝ) (k : String) (v : ℝ) (d : List (String × ℝ))
    (h : x ∈ dictVals (dictInsert k v d)) : x ∈ dictVals d ∨ x = v := by
  induction d with
  | nil => simpa [dictInsert] using h
  | cons kv rest ih =>
      obtain ⟨k', v'⟩ := kv
      by_cases hk : k' = k
      · rw [show dictInsert k v ((k', v') :: rest) = (k', v) :: rest from by
            simp [dictInsert, hk], dictVals_cons] at h
        rcases List.mem_cons.mp h with rfl | h2
        · exact Or.inr rfl
        · exact Or.inl (by rw [dictVals_cons]; exact List.mem_cons_of_mem v' h2)
      · rw [show dictInsert k v ((k', v') :: rest) = (k', v') :: dictInsert k v rest from by
            simp [dictInsert, hk], dictVals_cons] at h
        rcases List.mem_cons.mp h with rfl | h2
        · exact Or.inl (by rw [dictVals_cons]; exact List.mem_cons_self x (dictVals rest))
        · rcases ih h2 with h3 | h4
          · exact Or.inl (by rw [dictVals_cons]; exact List.mem_cons_of_mem v' h3)
          · exact Or.inr h4

theorem dictLookup_map_round (k : String) (d : List (String × ℝ)) :
    dictLookup k (d.map (fun kv => (kv.1, round4 kv.2))) =
      (dictLookup k d).map round4 := by
  induction d with
  | nil => simp [dictLookup]
  | cons kv rest ih =>
      obtain ⟨k', v'⟩ := kv
      by_cases h : k' = k <;> simp [dictLookup, h, ih]

theorem keys_map_round (d : List (String × ℝ)) :
    dictKeys (d.map (fun kv => (kv.1, round4 kv.2))) = dictKeys d := by
  induction d with
  | nil => rfl
  | cons kv rest ih =>
      obtain ⟨k', v'⟩ := kv
      show k' :: dictKeys (rest.map (fun kv => (kv.1, round4 kv.2))) = k' :: dictKeys rest
      rw [ih]

/-! ### Label lemmas -/

theorem string_append_left_cancel {s a b : String} (h : s ++ a = s ++ b) :
    a = b := by
  have hd : s.data ++ a.data = s.data ++ b.data := by
    simpa using congrArg String.data h
  have h2 : a.data = b.data := List.append_cancel_left hd
  cases a; cases b; simp_all

theorem paramLabel_inj {nt : NormOrder} {a b : String}
    (h : paramLabel nt a = paramLabel nt b) : a = b :=
  string_append_left_cancel h

/-! ### Lemmas about the per-parameter norm dict -/

theorem insertGradNorms_cons_none (nt : NormOrder) (p : Param) (rest : List Param)
    (acc : List (String × ℝ)) (hg : p.grad = none) :
    insertGradNorms nt (p :: rest) acc = insertGradNorms nt rest acc := by
  simp [insertGradNorms, hg]

theorem insertGradNorms_cons_some (nt : NormOrder) (p : Param) (rest : List Param)
    (acc : List (String × ℝ)) (g : List ℚ) (hg : p.grad = some g) :
    insertGradNorms nt (p :: rest) acc =
      insertGradNorms nt rest
        (dictInsert (paramLabel nt p.name) (pnorm nt (tensorVals g)) acc) := by
  simp [insertGradNorms, hg]

theorem gradParams_cons_none (p : Param) (rest : List Param) (hg : p.grad = none) :
    gradParams (p :: rest) = gradParams rest := by
  simp [gradParams, hg]

theorem gradParams_cons_some (p : Param) (rest : List Param) (g : List ℚ)
    (hg : p.grad = some g) : gradParams (p :: rest) = p :: gradParams rest := by
  simp [gradParams, hg]

theorem insertGradNorms_of_no_grads (nt : NormOrder) (ps : List Param)
    (acc : List (String × ℝ)) (h : ∀ p ∈ ps, p.grad = none) :
    insertGradNorms nt ps acc = acc := by
  induction ps generalizing acc with
  | nil => rfl
  | cons p rest ih =>
      rw [insertGradNorms_cons_none nt p rest acc (h p (List.mem_cons_self p rest))]
      exact ih acc (fun q hq => h q (List.mem_cons_of_mem p hq))

theorem insertGradNorms_ne_nil_of_acc (nt : NormOrder) (ps : List Param)
    (acc : List (String × ℝ)) (h : acc ≠ []) :
    insertGradNorms nt ps acc ≠ [] := by
  induction ps generalizing acc with
  | nil => exact h
  | cons p rest ih =>
      cases hg : p.grad with
      | none =>
          rw [insertGradNorms_cons_none nt p rest acc hg]
          exact ih acc h
      | some g =>
          rw [insertGradNorms_cons_some nt p rest acc g hg]
          exact ih _ (dictInsert_ne_nil _ _ _)

theorem insertGradNorms_ne_nil (nt : NormOrder) (ps : List Param)
    (acc : List (String × ℝ)) (h : ∃ p ∈ ps, p.grad.isSome) :
    insertGradNorms nt ps acc ≠ [] := by
  induction ps generalizing acc with
  | nil => simp at h
  | cons p rest ih =>
      cases hg : p.grad with
      | none =>
          rw [insertGradNorms_cons_none nt p rest acc hg]
          rcases h with ⟨q, hq, hqs⟩
          rcases List.mem_cons.mp hq with rfl | hq'
          · rw [hg] at hqs; simp at hqs
          · exact ih acc ⟨q, hq', hqs⟩
      | some g =>
          rw [insertGradNorms_cons_some nt p rest acc g hg]
          exact insertGradNorms_ne_nil_of_acc nt rest _ (dictInsert_ne_nil _ _ _)

theorem mem_keys_insertGradNorms (nt : NormOrder) (ps : List Param)
    (acc : List (String × ℝ)) (a : String) :
    a ∈ dictKeys (insertGradNorms nt ps acc) ↔
      a ∈ dictKeys acc ∨ a ∈ gradLabels nt ps := by
  induction ps generalizing acc with
  | nil => simp [insertGradNorms, gradLabels, gradParams]
  | cons p rest ih =>
      cases hg : p.grad with
      | none =>
          rw [insertGradNorms_cons_none nt p rest acc hg, ih]
          simp only [gradLabels, gradParams_cons_none p rest hg]
      | some g =>
          rw [insertGradNorms_cons_some nt p rest acc g hg, ih, mem_keys_dictInsert]
          simp only [gradLabels, gradParams_cons_some p rest g hg, List.map_cons,
            List.mem_cons]
          tauto

theorem mem_vals_insertGradNorms (nt : NormOrder) (ps : List Param)
    (acc : List (String × ℝ)) (x : ℝ)
    (h : x ∈ dictVals (insertGradNorms nt ps acc)) :
    x ∈ dictVals acc ∨ ∃ ys, x = pnorm nt ys := by
  induction ps generalizing acc with
  | nil => exact Or.inl h
  | cons p rest ih =>
      cases hg : p.grad with
      | none =>
          rw [insertGradNorms_cons_none nt p rest acc hg] at h
          exact ih acc h
      | some g =>
          rw [insertGradNorms_cons_some nt p rest acc g hg] at h
          rcases ih _ h with h1 | h2
          · rcases mem_vals_dictInsert _ _ _ _ h1 with h3 | h4
            · exact Or.inl h3
            · exact Or.inr ⟨tensorVals g, h4⟩
          · exact Or.inr h2

theorem length_insertGradNorms (nt : NormOrder) (ps : List Param)
    (acc : List (String × ℝ)) (hnd : (gradLabels nt ps).Nodup)
    (hdisj : ∀ l ∈ gradLabels nt ps, l ∉ dictKeys acc) :
    (insertGradNorms nt ps acc).length = acc.length + (gradParams ps).length := by
  induction ps generalizing acc with
  | nil => simp [insertGradNorms, gradParams]
  | cons p rest ih =>
      cases hg : p.grad with
      | none =>
          rw [insertGradNorms_cons_none nt p rest acc hg,
            gradParams_cons_none p rest hg]
          rw [gradLabels, gradParams_cons_none p rest hg] at hnd hdisj
          exact ih acc hnd hdisj
      | some g =>
          rw [insertGradNorms_cons_some nt p rest acc g hg,
            gradParams_cons_some p rest g hg]
          rw [gradLabels, gradParams_cons_some p rest g hg, List.map_cons] at hnd hdisj
          have hnotrest : paramLabel nt p.name ∉ gradLabels nt rest := by
            have h1 := (List.nodup_cons.mp hnd).1
            simpa [gradLabels] using h1
          have hndrest : (gradLabels nt rest).Nodup := by
            have h2 := (List.nodup_cons.mp hnd).2
            simpa [gradLabels] using h2
          have hpacc : paramLabel nt p.name ∉ dictKeys acc :=
            hdisj _ (List.mem_cons_self _ _)
          have hdisj' : ∀ l ∈ gradLabels nt rest, l ∉
              dictKeys (dictInsert (paramLabel nt p.name) (pnorm nt (tensorVals g)) acc) := by
            intro l hl hmem
            rcases (mem_keys_dictInsert l _ _ acc).mp hmem with h1 | h2
            · exact hdisj l (List.mem_cons_of_mem _ (by simpa [gradLabels] using hl)) h1
            · exact hnotrest (h2 ▸ hl)
          rw [ih _ hndrest hdisj',
            length_dictInsert_of_not_mem _ _ _ hpacc, List.length_cons]
          omega

theorem gradLabels_nodup (nt : NormOrder) (ps : List Param)
    (h : ((gradParams ps).map Param.name).Nodup) : (gradLabels nt ps).Nodup := by
  have hinj : Function.Injective (paramLabel nt) := fun a b hab => paramLabel_inj hab
  have : (((gradParams ps).map Param.name).map (paramLabel nt)).Nodup :=
    h.map hinj
  simpa [gradLabels, List.map_map, Function.comp] using this

/-! ### Non-negativity and rounding lemmas -/

theorem foldr_max_abs_nonneg (xs : List ℝ) :
    0 ≤ xs.foldr (fun x m => max |x| m) 0 := by
  induction xs with
  | nil => exact le_refl 0
  | cons x rest ih => exact le_trans ih (le_max_right |x| _)

theorem pnorm_nonneg (nt : NormOrder) (xs : List ℝ) : 0 ≤ pnorm nt xs := by
  cases nt with
  | num p =>
      apply Real.rpow_nonneg
      apply List.sum_nonneg
      intro x hx
      rcases List.mem_map.mp hx with ⟨y, _, rfl⟩
      exact Real.rpow_nonneg (abs_nonneg y) _
  | inf => exact foldr_max_abs_nonneg xs

theorem pyRound_nonneg {x : ℝ} (h : 0 ≤ x) : 0 ≤ pyRound x := by
  unfold pyRound
  split_ifs with h1 h2
  · exact Int.floor_nonneg.mpr h
  · have := Int.floor_nonneg.mpr h
    omega
  · rw [round_eq]
    exact Int.floor_nonneg.mpr (by linarith)

theorem round4_nonneg {x : ℝ} (h : 0 ≤ x) : 0 ≤ round4 x := by
  unfold round4
  apply div_nonneg _ (by norm_num)
  exact_mod_cast pyRound_nonneg (by positivity)

theorem round4_grid (x : ℝ) : ∃ z : ℤ, round4 x = (z : ℝ) / 10000 :=
  ⟨pyRound (x * 10000), rfl⟩

theorem pyRound_intCast (n : ℤ) : pyRound (n : ℝ) = n := by
  unfold pyRound
  rw [Int.fract_intCast, if_neg (by norm_num), round_intCast]

theorem round4_seven : round4 7 = 7 := by
  have h : (7 : ℝ) * 10000 = ((70000 : ℤ) : ℝ) := by norm_num
  rw [round4, h, pyRound_intCast]
  norm_num

/-! ### The per-parameter dict of a module -/

theorem paramNorms_eq_nil_iff (nt : NormOrder) (m : Module) :
    paramNorms nt m = [] ↔ gradParams m = [] := by
  constructor
  · intro h
    by_contra hne
    obtain ⟨p, hp⟩ := List.exists_mem_of_ne_nil _ hne
    have hmem := List.mem_filter.mp hp
    exact insertGradNorms_ne_nil nt m [] ⟨p, hmem.1, hmem.2⟩ h
  · intro h
    apply insertGradNorms_of_no_grads
    intro p hp
    have := List.filter_eq_nil_iff.mp h p hp
    simpa using this

theorem length_paramNorms (nt : NormOrder) (m : Module)
    (hnd : ((gradParams m).map Param.name).Nodup) :
    (paramNorms nt m).length = (gradParams m).length := by
  have := length_insertGradNorms nt m [] (gradLabels_nodup nt m hnd)
    (fun l _ => by simp [dictKeys])
  simpa [paramNorms] using this

/-! ### The report of `grad_norm` -/

theorem grad_norm_ok (m : Module) (i : NormInput) (nt : NormOrder)
    (hp : parseNormOrder i = some nt) :
    grad_norm m i = Except.ok (gradNormCore nt m) := by
  unfold grad_norm
  rw [hp]

theorem gradNormCore_of_ne_nil (nt : NormOrder) (m : Module)
    (hne : paramNorms nt m ≠ []) :
    gradNormCore nt m =
      (dictInsert (paramLabel nt "total") (pnorm nt (dictVals (paramNorms nt m)))
        (paramNorms nt m)).map (fun kv => (kv.1, round4 kv.2)) := by
  simp only [gradNormCore]
  rw [if_neg hne]

theorem paramNorms_ne_nil (nt : NormOrder) (m : Module) (hg : gradParams m ≠ []) :
    paramNorms nt m ≠ [] := by
  intro h
  exact hg ((paramNorms_eq_nil_iff nt m).mp h)

/-! ### The claims -/

/-- C1: for every module with at least one gradient-bearing parameter and
every valid norm order, the value stored under the total label is the p-norm
of the same order applied to the vector of the collected per-parameter
gradient-norm scalars (rounded to 4 decimal places with the rest of the
report), not the p-norm of the raw gradient values. -/
theorem grad_norm_total_is_norm_of_param_norms (m : Module) (i : NormInput)
    (nt : NormOrder) (hp : parseNormOrder i = some nt) (hg : gradParams m ≠ []) :
    ∃ r, grad_norm m i = Except.ok r ∧
      dictLookup (paramLabel nt "total") r =
        some (round4 (pnorm nt (dictVals (paramNorms nt m)))) := by
  have hne := paramNorms_ne_nil nt m hg
  refine ⟨gradNormCore nt m, grad_norm_ok m i nt hp, ?_⟩
  rw [gradNormCore_of_ne_nil nt m hne, dictLookup_map_round,
    dictLookup_dictInsert_self]
  rfl

/-- Witness for C1 at a one-parameter module with gradient `[3, 4]` and norm
order `2`. -/
theorem grad_norm_total_is_norm_of_param_norms_witness :
    ∃ r, grad_norm [⟨"w", [1], some [3, 4]⟩] (NormInput.ofInt 2) = Except.ok r ∧
      dictLookup (paramLabel (NormOrder.num 2) "total") r =
        some (round4 (pnorm (NormOrder.num 2)
          (dictVals (paramNorms (NormOrder.num 2) [⟨"w", [1], some [3, 4]⟩])))) :=
  grad_norm_total_is_norm_of_param_norms [⟨"w", [1], some [3, 4]⟩]
    (NormInput.ofInt 2) (NormOrder.num 2) (by decide) (by decide)

/-- C2: whenever the norm order does not parse as a float or a recognized
infinity symbol, `grad_norm` fails with the `InvalidNormOrder` error, which is
the only error kind of the operation. -/
theorem grad_norm_invalid_order_error (m : Module) (i : NormInput)
    (hp : parseNormOrder i = none) :
    grad_norm m i = Except.error GradError.invalidNormOrder ∧
      ∀ e : GradError, e = GradError.invalidNormOrder := by
  constructor
  · unfold grad_norm
    rw [hp]
  · intro e
    cases e
    rfl

/-- Witness for C2 at the non-numeric norm order string `"two"`. -/
theorem grad_norm_invalid_order_error_witness :
    grad_norm [] (NormInput.ofStr "two") = Except.error GradError.invalidNormOrder ∧
      ∀ e : GradError, e = GradError.invalidNormOrder :=
  grad_norm_invalid_order_error [] (NormInput.ofStr "two") (by decide)

/-- C3: for every module in which no parameter holds a gradient, `grad_norm`
returns the empty report — no per-parameter entry and no total entry. -/
theorem grad_norm_empty_when_no_grads (m : Module) (i : NormInput)
    (nt : NormOrder) (hp : parseNormOrder i = some nt) (hg : gradParams m = []) :
    grad_norm m i = Except.ok [] := by
  rw [grad_norm_ok m i nt hp]
  have hnil : paramNorms nt m = [] := (paramNorms_eq_nil_iff nt m).mpr hg
  simp [gradNormCore, hnil]

/-- Witness for C3 at a module whose single parameter has no gradient. -/
theorem grad_norm_empty_when_no_grads_witness :
    grad_norm [⟨"w", [1], none⟩] (NormInput.ofInt 2) = Except.ok [] :=
  grad_norm_empty_when_no_grads [⟨"w", [1], none⟩] (NormInput.ofInt 2)
    (NormOrder.num 2) (by decide) (by decide)

/-- C4, counterexample: for the module whose single gradient-bearing
parameter is named `total`, the report has 1 entry, not
(number of gradient-bearing parameters) + 1 = 2 — the aggregate label
collides with the parameter's label. -/
theorem grad_norm_size_claim_cex :
    ∃ r, grad_norm [⟨"total", [], some [1]⟩] (NormInput.ofInt 2) = Except.ok r ∧
      r.length ≠ (gradParams [⟨"total", [], some [1]⟩]).length + 1 := by
  refine ⟨gradNormCore (NormOrder.num 2) [⟨"total", [], some [1]⟩],
    grad_norm_ok _ _ _ (by decide), ?_⟩
  have hlen : (gradNormCore (NormOrder.num 2) [⟨"total", [], some [1]⟩]).length = 1 := by
    simp [gradNormCore, paramNorms, insertGradNorms, dictInsert, dictVals]
  rw [hlen]
  decide

/-- C4, amended: for every module with at least one gradient-bearing
parameter, none of which is named `total` (parameter names being distinct, as
`named_parameters` guarantees), the report has exactly one entry per
gradient-bearing parameter plus one total entry. -/
theorem grad_norm_size (m : Module) (i : NormInput) (nt : NormOrder)
    (hp : parseNormOrder i = some nt)
    (hnd : ((gradParams m).map Param.name).Nodup)
    (hg : gradParams m ≠ [])
    (htot : "total" ∉ (gradParams m).map Param.name) :
    ∃ r, grad_norm m i = Except.ok r ∧ r.length = (gradParams m).length + 1 := by
  have hne := paramNorms_ne_nil nt m hg
  refine ⟨gradNormCore nt m, grad_norm_ok m i nt hp, ?_⟩
  rw [gradNormCore_of_ne_nil nt m hne, List.length_map]
  have hkeys : paramLabel nt "total" ∉ dictKeys (paramNorms nt m) := by
    intro hmem
    rcases (mem_keys_insertGradNorms nt m [] _).mp hmem with h1 | h2
    · simp [dictKeys] at h1
    · rcases List.mem_map.mp h2 with ⟨p, hpmem, hEq⟩
      have hname : p.name = "total" := paramLabel_inj hEq
      exact htot (List.mem_map.mpr ⟨p, hpmem, hname⟩)
  rw [length_dictInsert_of_not_mem _ _ _ hkeys, length_paramNorms nt m hnd]

/-- Witness for the amended C4 at a two-parameter module. -/
theorem grad_norm_size_witness :
    ∃ r, grad_norm [⟨"a", [], some [1]⟩, ⟨"b", [], some [2]⟩]
        (NormInput.ofInt 2) = Except.ok r ∧
      r.length = (gradParams [⟨"a", [], some [1]⟩, ⟨"b", [], some [2]⟩]).length + 1 :=
  grad_norm_size [⟨"a", [], some [1]⟩, ⟨"b", [], some [2]⟩] (NormInput.ofInt 2)
    (NormOrder.num 2) (by decide) (by decide) (by decide) (by decide)

/-- C5: every value of a report returned by `grad_norm` is non-negative and
is an integer multiple of `1/10000`, i.e. has been rounded to 4 decimal
places. -/
theorem grad_norm_values_nonneg_rounded (m : Module) (i : NormInput)
    (r : List (String × ℝ)) (h : grad_norm m i = Except.ok r)
    (kv : String × ℝ) (hkv : kv ∈ r) :
    0 ≤ kv.2 ∧ ∃ z : ℤ, kv.2 = (z : ℝ) / 10000 := by
  unfold grad_norm at h
  cases hp : parseNormOrder i with
  | none =>
      rw [hp] at h
      simp at h
  | some nt =>
      rw [hp] at h
      have hr : gradNormCore nt m = r := by
        injection h
      subst hr
      by_cases hne : paramNorms nt m = []
      · simp [gradNormCore, hne] at hkv
      · rw [gradNormCore_of_ne_nil nt m hne] at hkv
        rcases List.mem_map.mp hkv with ⟨kv', hkv', rfl⟩
        have hval : kv'.2 ∈ dictVals (dictInsert (paramLabel nt "total")
            (pnorm nt (dictVals (paramNorms nt m))) (paramNorms nt m)) :=
          List.mem_map_of_mem Prod.snd hkv'
        have hpos : 0 ≤ kv'.2 := by
          rcases mem_vals_dictInsert _ _ _ _ hval with h1 | h2
          · rcases mem_vals_insertGradNorms nt m [] _ h1 with h3 | h4
            · simp [dictVals] at h3
            · rcases h4 with ⟨ys, hys⟩
              rw [hys]
              exact pnorm_nonneg nt ys
          · rw [h2]
            exact pnorm_nonneg nt _
        exact ⟨round4_nonneg hpos, round4_grid kv'.2⟩

/-- Witness for C5: the per-parameter entry of a one-parameter module with
gradient `[0]` and infinity norm order. -/
theorem grad_norm_values_nonneg_rounded_witness :
    0 ≤ (("grad_inf_norm_w", round4 (pnorm NormOrder.inf (tensorVals [0]))) :
        String × ℝ).2 ∧
      ∃ z : ℤ, (("grad_inf_norm_w",
        round4 (pnorm NormOrder.inf (tensorVals [0]))) : String × ℝ).2 =
          (z : ℝ) / 10000 :=
  grad_norm_values_nonneg_rounded [⟨"w", [], some [0]⟩] (NormInput.ofStr "inf")
    [("grad_inf_norm_w", round4 (pnorm NormOrder.inf (tensorVals [0]))),
     ("grad_inf_norm_total",
       round4 (pnorm NormOrder.inf [pnorm NormOrder.inf (tensorVals [0])]))]
    (by
      have hp : parseNormOrder (NormInput.ofStr "inf") = some NormOrder.inf := by
        decide
      simp [grad_norm, hp, gradNormCore, paramNorms, insertGradNorms, dictInsert,
        dictVals, paramLabel, labelStem, showNormOrder])
    ("grad_inf_norm_w", round4 (pnorm NormOrder.inf (tensorVals [0])))
    (by simp)

/-- C6: the report entry of a gradient-bearing parameter named `N` carries
the label `grad_<norm_type>_norm_<N>` and the aggregate entry carries
`grad_<norm_type>_norm_total`, where `<norm_type>` is the norm order after
normalization to a float. -/
theorem grad_norm_labels (m : Module) (i : NormInput) (nt : NormOrder)
    (hp : parseNormOrder i = some nt) (p : Param) (hpm : p ∈ gradParams m) :
    ∃ r, grad_norm m i = Except.ok r ∧
      ("grad_" ++ showNormOrder nt ++ "_norm_" ++ p.name) ∈ dictKeys r ∧
      ("grad_" ++ showNormOrder nt ++ "_norm_total") ∈ dictKeys r := by
  have hg : gradParams m ≠ [] := List.ne_nil_of_mem hpm
  have hne := paramNorms_ne_nil nt m hg
  refine ⟨gradNormCore nt m, grad_norm_ok m i nt hp, ?_, ?_⟩
  · rw [gradNormCore_of_ne_nil nt m hne, keys_map_round]
    apply (mem_keys_dictInsert _ _ _ _).mpr
    left
    simp only [paramNorms]
    apply (mem_keys_insertGradNorms nt m [] _).mpr
    right
    simp only [gradLabels]
    exact List.mem_map_of_mem _ hpm
  · rw [gradNormCore_of_ne_nil nt m hne, keys_map_round]
    apply (mem_keys_dictInsert _ _ _ _).mpr
    right
    show "grad_" ++ showNormOrder nt ++ "_norm_total" = paramLabel nt "total"
    rw [paramLabel, labelStem]
    have hnt : ("_norm_total" : String) = "_norm_" ++ "total" := rfl
    rw [hnt, ← String.append_assoc]

/-- Witness for C6 at a one-parameter module and the infinity norm order. -/
theorem grad_norm_labels_witness :
    ∃ r, grad_norm [⟨"w", [], some [1]⟩] (NormInput.ofStr "inf") = Except.ok r ∧
      ("grad_" ++ showNormOrder NormOrder.inf ++ "_norm_" ++
        (⟨"w", [], some [1]⟩ : Param).name) ∈ dictKeys r ∧
      ("grad_" ++ showNormOrder NormOrder.inf ++ "_norm_total") ∈ dictKeys r :=
  grad_norm_labels [⟨"w", [], some [1]⟩] (NormInput.ofStr "inf") NormOrder.inf
    (by decide) ⟨"w", [], some [1]⟩ (by decide)

/-- C7: `grad_norm` is deterministic and keeps no state between calls:
calling it a second time, on the module state left by the first call, yields
the identical report. -/
theorem grad_norm_deterministic (m : Module) (i : NormInput) :
    (grad_norm_run ((grad_norm_run m i).2) i).1 = (grad_norm_run m i).1 := rfl

/-- C8: `grad_norm` is a read-only inspection — after the call the module's
parameters, their data tensors and their gradient tensors are unchanged. -/
theorem grad_norm_readonly (m : Module) (i : NormInput) :
    (grad_norm_run m i).2 = m := rfl

/-- C9: with the infinity norm order and a single gradient `[3, -7, 2]`, the
report holds the per-parameter norm `7.0` and the total `7.0`. -/
theorem grad_norm_inf_scenario :
    ∃ r, grad_norm [⟨"p", [], some [3, -7, 2]⟩] (NormInput.ofStr "inf") =
        Except.ok r ∧
      dictLookup "grad_inf_norm_p" r = some 7 ∧
      dictLookup "grad_inf_norm_total" r = some 7 := by
  have h7 : pnorm NormOrder.inf (tensorVals [3, -7, 2]) = 7 := by
    simp [pnorm, tensorVals]
    norm_num
  have h7t : pnorm NormOrder.inf [(7 : ℝ)] = 7 := by
    simp [pnorm]
  have hcore : gradNormCore NormOrder.inf [⟨"p", [], some [3, -7, 2]⟩] =
      [("grad_inf_norm_p", (7 : ℝ)), ("grad_inf_norm_total", (7 : ℝ))] := by
    simp [gradNormCore, paramNorms, insertGradNorms, dictInsert, dictVals,
      paramLabel, labelStem, showNormOrder, h7, h7t, round4_seven]
  refine ⟨gradNormCore NormOrder.inf [⟨"p", [], some [3, -7, 2]⟩],
    grad_norm_ok _ _ _ (by decide), ?_, ?_⟩
  · rw [hcore]
    simp [dictLookup]
  · rw [hcore]
    simp [dictLookup]

/-- C10: when a gradient-bearing parameter is named `total`, its label
coincides with the aggregate label, the aggregate value overwrites the
parameter's own norm, and the report has only (number of gradient-bearing
parameters) entries. Parameter names are distinct, as `named_parameters`
guarantees. -/
theorem grad_norm_total_name_collision (m : Module) (i : NormInput)
    (nt : NormOrder) (hp : parseNormOrder i = some nt)
    (hnd : ((gradParams m).map Param.name).Nodup)
    (htot : "total" ∈ (gradParams m).map Param.name) :
    ∃ r, grad_norm m i = Except.ok r ∧
      r.length = (gradParams m).length ∧
      dictLookup (paramLabel nt "total") r =
        some (round4 (pnorm nt (dictVals (paramNorms nt m)))) := by
  have hg : gradParams m ≠ [] := by
    intro h
    rw [h] at htot
    simp at htot
  have hne := paramNorms_ne_nil nt m hg
  refine ⟨gradNormCore nt m, grad_norm_ok m i nt hp, ?_, ?_⟩
  · rw [gradNormCore_of_ne_nil nt m hne, List.length_map]
    have hkeys : paramLabel nt "total" ∈ dictKeys (paramNorms nt m) := by
      rcases List.mem_map.mp htot with ⟨p, hpmem, hname⟩
      simp only [paramNorms]
      apply (mem_keys_insertGradNorms nt m [] _).mpr
      right
      simp only [gradLabels]
      exact List.mem_map.mpr ⟨p, hpmem, by rw [hname]⟩
    rw [length_dictInsert_of_mem _ _ _ hkeys, length_paramNorms nt m hnd]
  · rw [gradNormCore_of_ne_nil nt m hne, dictLookup_map_round,
      dictLookup_dictInsert_self]
    rfl

/-- Witness for C10 at the module whose single gradient-bearing parameter is
named `total`. -/
theorem grad_norm_total_name_collision_witness :
    ∃ r, grad_norm [⟨"total", [], some [1]⟩] (NormInput.ofInt 2) = Except.ok r ∧
      r.length = (gradParams [⟨"total", [], some [1]⟩]).length ∧
      dictLookup (paramLabel (NormOrder.num 2) "total") r =
        some (round4 (pnorm (NormOrder.num 2)
          (dictVals (paramNorms (NormOrder.num 2) [⟨"total", [], some [1]⟩])))) :=
  grad_norm_total_name_collision [⟨"total", [], some [1]⟩] (NormInput.ofInt 2)
    (NormOrder.num 2) (by decide) (by decide) (by decide)

end Grads
